import Mathlib

/-!
Verification of the Merkle claim compiler of `GenerateClaims.py`.

This file gives a shallow embedding of the program's data model and
operations:

* Keccak-256 (the `keccak` primitive of `eth_utils`, used by the script for
  leaf hashing, pair hashing and EIP-55 address checksumming) is implemented
  in full (Keccak-f[1600], rate 1088, original 0x01 padding) over `Nat`.
* `parse_amount_to_wei`, `hash_leaf`, `hash_pair`, `build_layers` and
  `get_proof` are translated from the source, together with a model of
  Python's `decimal.Decimal` restricted to the operations the script uses
  (exact construction from a string, comparison with zero, `as_tuple`
  exponent inspection, multiplication under the context precision of 80
  significant digits with half-even rounding, `to_integral_value`, and
  truncating `int(...)` conversion).
* `main`'s pure core (row normalization, zero-amount skipping, tree build,
  claim-table assembly and statistics) is modelled on the in-memory row list;
  the CSV/JSON file I/O, `sys.argv` handling and printing that surround it
  are the I/O boundary and are not part of the model.  The convenience
  display field `amountEth` (a `Decimal` division re-rendered as a string,
  emitted only for `unit == "eth"`) is derived output not referenced by any
  verified property and is omitted from the output record.

Python byte strings are `List Nat` with entries below 256; Python text
strings are Lean `String`s (the inputs involved are ASCII, where the model
is exact).
-/

namespace GenerateClaims

/-! ## Bytes and hex -/

/-- Python `bytes` values: lists of naturals below 256. -/
def isBytes (l : List Nat) : Prop := ∀ b ∈ l, b < 256

instance (l : List Nat) : Decidable (isBytes l) := by
  unfold isBytes; infer_instance

/-- Lowercase hex digit for a nibble, as produced by Python's `bytes.hex()`. -/
def hexDigitChar (n : Nat) : Char :=
  if n < 10 then Char.ofNat (48 + n) else Char.ofNat (87 + n)

/-- Two lowercase hex characters per byte, as `bytes.hex()` does. -/
def bytesToHexChars : List Nat → List Char
  | [] => []
  | b :: t => hexDigitChar (b / 16) :: hexDigitChar (b % 16) :: bytesToHexChars t

/-- Python `bytes.hex()`. -/
def bytesToHex (bs : List Nat) : String := String.mk (bytesToHexChars bs)

/-- Value of one hex character (either case). -/
def hexCharVal (c : Char) : Nat :=
  if c.toNat ≤ 57 then c.toNat - 48
  else if c.toNat ≤ 70 then c.toNat - 55
  else c.toNat - 87

/-- Decode a hex character sequence to bytes, two characters per byte. -/
def hexCharsToBytes : List Char → List Nat
  | c1 :: c2 :: t => (hexCharVal c1 * 16 + hexCharVal c2) :: hexCharsToBytes t
  | _ => []

/-- Decode a `"0x"`-prefixed hex string (as stored in proofs) back to bytes. -/
def hexDecode (s : String) : List Nat := hexCharsToBytes (s.data.drop 2)

/-! ## Keccak-256

The script hashes with `eth_utils.keccak`, i.e. the original Keccak-256
(capacity 512, rate 1088 bits = 136 bytes, multi-rate padding `0x01 … 0x80`,
NOT the NIST SHA3-256 `0x06` padding).  Lanes are 64-bit words kept as `Nat`
reduced modulo `2 ^ 64`. -/

/-- The 24 round constants of Keccak-f[1600]. -/
def keccakRC : List Nat :=
  [0x1, 0x8082, 0x800000000000808a, 0x8000000080008000, 0x808b, 0x80000001] ++
  [0x8000000080008081, 0x8000000000008009, 0x8a, 0x88, 0x80008009, 0x8000000a] ++
  [0x8000808b, 0x800000000000008b, 0x8000000000008089, 0x8000000000008003] ++
  [0x8000000000008002, 0x8000000000000080, 0x800a, 0x800000008000000a] ++
  [0x8000000080008081, 0x8000000000008080, 0x80000001, 0x8000000080008008]

/-- Rotation offsets, indexed by lane `x + 5 * y`. -/
def keccakRho : List Nat :=
  [0, 1, 62, 28, 27] ++ [36, 44, 6, 55, 20] ++ [3, 10, 43, 25, 39] ++
  [41, 45, 15, 21, 8] ++ [18, 2, 61, 56, 14]

/-- Read lane `i` of a 25-lane state (0 when out of range). -/
def laneGet (A : List Nat) (i : Nat) : Nat := A.getD i 0

/-- Left rotation of a 64-bit word. -/
def rotl64 (x n : Nat) : Nat := ((x <<< n) ||| (x >>> (64 - n))) % 2 ^ 64

/-- Theta step of Keccak-f. -/
def keccakTheta (A : List Nat) : List Nat :=
  let C := (List.range 5).map (fun x =>
    laneGet A x ^^^ laneGet A (x + 5) ^^^ laneGet A (x + 10) ^^^
    laneGet A (x + 15) ^^^ laneGet A (x + 20))
  let D := (List.range 5).map (fun x =>
    laneGet C ((x + 4) % 5) ^^^ rotl64 (laneGet C ((x + 1) % 5)) 1)
  (List.range 25).map (fun i => laneGet A i ^^^ laneGet D (i % 5))

/-- Rho and pi steps: output lane `(x, y)` is the source lane `((x+3y) mod 5, x)`
rotated by that source lane's offset. -/
def keccakRhoPi (A : List Nat) : List Nat :=
  (List.range 25).map (fun j =>
    let x := j % 5
    let y := j / 5
    let src := (x + 3 * y) % 5 + 5 * x
    rotl64 (laneGet A src) (laneGet keccakRho src))

/-- Chi step of Keccak-f. -/
def keccakChi (A : List Nat) : List Nat :=
  (List.range 25).map (fun j =>
    let x := j % 5
    let y := j / 5
    laneGet A j ^^^
      ((laneGet A ((x + 1) % 5 + 5 * y) ^^^ (2 ^ 64 - 1)) &&&
        laneGet A ((x + 2) % 5 + 5 * y)))

/-- Iota step: xor the round constant into lane 0. -/
def keccakIota (rc : Nat) (A : List Nat) : List Nat :=
  match A with
  | [] => []
  | a :: t => (a ^^^ rc) :: t

/-- The full Keccak-f[1600] permutation (24 rounds). -/
def keccakF (A : List Nat) : List Nat :=
  keccakRC.foldl (fun S rc => keccakIota rc (keccakChi (keccakRhoPi (keccakTheta S)))) A

/-- Original Keccak multi-rate padding to a multiple of 136 bytes. -/
def keccakPad (msg : List Nat) : List Nat :=
  let p := 136 - msg.length % 136
  msg ++ (if p = 1 then [0x81] else 0x01 :: (List.replicate (p - 2) 0 ++ [0x80]))

/-- Split a byte list into 136-byte blocks (`fuel` bounds the block count). -/
def chunks136 : Nat → List Nat → List (List Nat)
  | 0, _ => []
  | _, [] => []
  | fuel + 1, l => l.take 136 :: chunks136 fuel (l.drop 136)

/-- A 64-bit little-endian lane from (up to) 8 bytes. -/
def bytesToLane (bs : List Nat) : Nat := bs.foldr (fun b acc => b + 256 * acc) 0

/-- Absorb one 136-byte block into the first 17 lanes of the state. -/
def absorbBlock (A : List Nat) (blk : List Nat) : List Nat :=
  (List.range 25).map (fun j =>
    if j < 17 then laneGet A j ^^^ bytesToLane ((blk.drop (8 * j)).take 8)
    else laneGet A j)

/-- Squeeze the 32-byte digest from the final state. -/
def keccakSqueeze (A : List Nat) : List Nat :=
  (List.range 32).map (fun n => (laneGet A (n / 8) >>> (8 * (n % 8))) % 256)

/-- Keccak-256 of a byte string, as computed by `eth_utils.keccak`. -/
def keccak (msg : List Nat) : List Nat :=
  let padded := keccakPad msg
  keccakSqueeze
    ((chunks136 padded.length padded).foldl (fun A blk => keccakF (absorbBlock A blk))
      (List.replicate 25 0))

/-! ## Python string helpers -/

/-- ASCII decimal digit (`'0'`–`'9'`). -/
def isAsciiDigit (c : Char) : Bool := 48 ≤ c.toNat && c.toNat ≤ 57

/-- Python whitespace stripped by `str.strip()` (ASCII subset; the inputs of
interest are ASCII). -/
def isPySpace (c : Char) : Bool :=
  c = ' ' || c = '\t' || c = '\n' || c = '\x0d' || c = '\x0b' || c = '\x0c'

/-- Python `str.strip()` on the character list. -/
def pyStripChars (l : List Char) : List Char :=
  ((l.dropWhile isPySpace).reverse.dropWhile isPySpace).reverse

/-- Python `str.strip()`. -/
def pyStrip (s : String) : String := String.mk (pyStripChars s.data)

/-- ASCII lowercasing, Python `str.lower()` on the inputs of interest. -/
def pyLower (s : String) : String := String.mk (s.data.map Char.toLower)

/-- Value of a (nonempty) decimal digit string, Python `int(...)`. -/
def digitsToNat (l : List Char) : Nat :=
  l.foldl (fun a c => a * 10 + (c.toNat - 48)) 0

/-- Python `str.isdigit()` restricted to ASCII: nonempty and all digits. -/
def pyIsDigit (l : List Char) : Bool := !l.isEmpty && l.all isAsciiDigit

/-! ## Python exceptions

The exceptions the modelled code can raise: `ValueError` (with a message
tag), `TypeError`, `decimal.InvalidOperation`, `IndexError`, and
`SystemExit` (with a message tag).  Messages are abbreviated tags; the
claims never inspect full message texts. -/

inductive PyExc where
  | valueError (msg : String)
  | typeError
  | invalidOperation
  | indexError
  | systemExit (msg : String)
  deriving DecidableEq, Repr

/-! ## `decimal.Decimal`

Only the features used by `parse_amount_to_wei` are modelled: exact
construction from a string, `< 0` comparison, `as_tuple().exponent`,
multiplication under the module-level context `getcontext().prec = 80`
(line 11 of the source) with the default `ROUND_HALF_EVEN`,
`to_integral_value`, `!=` value comparison, and truncating `int(...)`. -/

inductive Dec where
  /-- A finite decimal: sign (`true` = negative), coefficient, exponent;
  value `(-1)^sign * coeff * 10^exp`. -/
  | finite (sign : Bool) (coeff : Nat) (exp : Int)
  | inf (sign : Bool)
  | nan
  deriving DecidableEq, Repr

/-- Number of decimal digits of a coefficient (`1` for `0`), via the
fuel-bounded core digit printer. -/
def numDigits (n : Nat) : Nat := (Nat.toDigits 10 n).length

/-- Round `q` with discarded remainder `r` out of `sc` (half-even, the
default `decimal` rounding). -/
def roundHalfEven (q r sc : Nat) : Nat :=
  if 2 * r > sc then q + 1
  else if 2 * r < sc then q
  else if q % 2 = 0 then q else q + 1

/-- Multiplication on `Decimal` at context precision 80 (`ROUND_HALF_EVEN`). -/
def decMul80 : Dec → Dec → Dec
  | .nan, _ => .nan
  | _, .nan => .nan
  | .inf s1, .inf s2 => .inf (xor s1 s2)
  | .inf s1, .finite s2 c _ => if c = 0 then .nan else .inf (xor s1 s2)
  | .finite s1 c _, .inf s2 => if c = 0 then .nan else .inf (xor s1 s2)
  | .finite s1 c1 e1, .finite s2 c2 e2 =>
    let c := c1 * c2
    let d := numDigits c
    if d ≤ 80 then .finite (xor s1 s2) c (e1 + e2)
    else
      let k := d - 80
      let sc := 10 ^ k
      .finite (xor s1 s2) (roundHalfEven (c / sc) (c % sc) sc) (e1 + e2 + k)

/-- Model of `Decimal.to_integral_value()` (round to exponent 0, half-even). -/
def decToIntegralValue : Dec → Dec
  | .finite s c e =>
    if 0 ≤ e then .finite s c e
    else
      let k := (-e).toNat
      let sc := 10 ^ k
      .finite s (roundHalfEven (c / sc) (c % sc) sc) 0
  | d => d

/-- Numeric equality of two finite decimals (`==` on `Decimal`). -/
def decNumEq : Dec → Dec → Bool
  | .finite s1 c1 e1, .finite s2 c2 e2 =>
    if c1 = 0 && c2 = 0 then true
    else if s1 ≠ s2 then false
    else if e1 ≤ e2 then c1 = c2 * 10 ^ (e2 - e1).toNat
    else c1 * 10 ^ (e1 - e2).toNat = c2
  | .inf s1, .inf s2 => s1 = s2
  | _, _ => false

/-- Comparison `d < 0` on a `Decimal`: raises `InvalidOperation` for NaN. -/
def decLtZero : Dec → Except PyExc Bool
  | .finite s c _ => .ok (s && c ≠ 0)
  | .inf s => .ok s
  | .nan => .error .invalidOperation

/-- The fractional-digit count of line 42 of the source:
`-exponent if exponent < 0 else 0`.  For non-finite decimals
`as_tuple().exponent` is a string and the comparison with `0` raises
`TypeError`. -/
def decFracDigits : Dec → Except PyExc Nat
  | .finite _ _ e => .ok (if e < 0 then (-e).toNat else 0)
  | _ => .error .typeError

/-- Truncating `int(...)` conversion of a finite decimal (toward zero; the
modelled call site only reaches it with non-negative integral values, so the
magnitude is returned as a `Nat`). -/
def decTruncToNat : Dec → Nat
  | .finite _ c e => if 0 ≤ e then c * 10 ^ e.toNat else c / 10 ^ (-e).toNat
  | _ => 0

/-! ### Parsing a `Decimal` from a string

The numeric grammar accepted by `Decimal(v)`: optional sign, then either a
digit string with an optional point and optional exponent part, or one of
the special values `Infinity`/`Inf`/`NaN`/`sNaN` (case-insensitive; NaN may
carry a digit payload). -/

/-- Split an optional leading sign; returns (negative?, rest). -/
def splitSign : List Char → Bool × List Char
  | '+' :: t => (false, t)
  | '-' :: t => (true, t)
  | l => (false, l)

/-- Parse the exponent suffix (empty, or `e`/`E` sign? digits). -/
def parseExpPart : List Char → Option Int
  | [] => some 0
  | c :: t =>
    if c = 'e' ∨ c = 'E' then
      let (neg, r) := splitSign t
      if pyIsDigit r then
        some (if neg then -(digitsToNat r : Int) else (digitsToNat r : Int))
      else none
    else none

/-- Parse the coefficient-and-exponent body of a finite decimal. -/
def parseFinite (sign : Bool) (l : List Char) : Option Dec :=
  let (ip, r1) := l.span isAsciiDigit
  let (fp, r2) :=
    match r1 with
    | '.' :: t => t.span isAsciiDigit
    | _ => ([], r1)
  if ip.isEmpty && fp.isEmpty then none
  else
    match parseExpPart r2 with
    | none => none
    | some e => some (.finite sign (digitsToNat (ip ++ fp)) (e - fp.length))

/-- Parse a `Decimal` literal (`Decimal(v)`); `none` = `InvalidOperation`. -/
def decimalOfString (s : String) : Option Dec :=
  let l := pyStripChars s.data
  let (sign, body) := splitSign l
  let low := body.map Char.toLower
  if low = "inf".data ∨ low = "infinity".data then some (.inf sign)
  else if low = "nan".data ∨ low = "snan".data then some .nan
  else if (low.take 3 = "nan".data && pyIsDigit (low.drop 3)) ∨
          (low.take 4 = "snan".data && pyIsDigit (low.drop 4)) then some .nan
  else parseFinite sign body

/-- Drop one optional leading plus sign. -/
def dropLeadingPlus : List Char → List Char
  | '+' :: t => t
  | l => l

/-- The constant `WEI_PER_ETH = Decimal("1000000000000000000")`. -/
def WEI_PER_ETH : Dec := .finite false (10 ^ 18) 0

/-! ## `parse_amount_to_wei` (source lines 16–49) -/

/-- Model of `parse_amount_to_wei(value, unit)`: `unit="wei"` accepts an integer
string with an optional leading `+`; any other unit takes the `"eth"` path,
which parses an exact decimal, rejects negatives and more than 18 fractional
digits, scales by `WEI_PER_ETH` under the 80-digit context, rejects
non-integral results and truncates to an integer.  All success paths return
non-negative values, modelled as `Nat`. -/
def parse_amount_to_wei (value : String) (unit : String) : Except PyExc Nat :=
  if unit = "wei" then
    if pyIsDigit (dropLeadingPlus (pyStripChars value.data)) then
      .ok (digitsToNat (dropLeadingPlus (pyStripChars value.data)))
    else .error (.valueError "rewardTotal must be an integer wei string when unit=wei")
  else
    match decimalOfString (String.mk (pyStripChars value.data)) with
    | none => .error (.valueError "rewardTotal is not a valid decimal ETH amount")
    | some d =>
      match decLtZero d with
      | .error e => .error e
      | .ok true => .error (.valueError "rewardTotal cannot be negative")
      | .ok false =>
        match decFracDigits d with
        | .error e => .error e
        | .ok exp =>
          if 18 < exp then .error (.valueError "rewardTotal has more than 18 decimals")
          else
            let wei := decMul80 d WEI_PER_ETH
            if decNumEq wei (decToIntegralValue wei) then .ok (decTruncToNat wei)
            else .error (.valueError "rewardTotal cannot be represented exactly in wei")

/-! ## `eth_utils.to_checksum_address` (EIP-55)

`to_checksum_address` lowercases first and only then format-checks, so any
mix of letter cases is accepted; it never verifies an input checksum.  The
checksum uppercases hex letter `i` when nibble `i` of the Keccak-256 hash of
the lowercase 40-character hex body is at least 8. -/

/-- Hex character of either case. -/
def isHexChar (c : Char) : Bool :=
  isAsciiDigit c || ('a' ≤ c && c ≤ 'f') || ('A' ≤ c && c ≤ 'F')

/-- Drop an optional `0x`/`0X` prefix. -/
def hexBody : List Char → List Char
  | '0' :: 'x' :: t => t
  | '0' :: 'X' :: t => t
  | l => l

/-- Nibble `i` (0–39) of a 32-byte hash, high nibble first within a byte. -/
def hashNibble (h : List Nat) (i : Nat) : Nat :=
  if i % 2 = 0 then h.getD (i / 2) 0 / 16 else h.getD (i / 2) 0 % 16

/-- Model of `eth_utils.to_checksum_address`. -/
def to_checksum_address (s : String) : Except PyExc String :=
  let body := hexBody s.data
  if body.length = 40 && body.all isHexChar then
    let lower := body.map Char.toLower
    let h := keccak (lower.map Char.toNat)
    .ok ("0x" ++ String.mk ((List.range 40).map (fun i =>
      let c := lower.getD i ' '
      if isAsciiDigit c then c
      else if 8 ≤ hashNibble h i then c.toUpper else c)))
  else .error (.valueError "invalid address")

/-! ## Leaf and node hashing (source lines 52–72) -/

/-- A `uint256` as 32 big-endian bytes (the ABI word for the amount; every
amount reached by the verified properties is below `2 ^ 256`, where this is
exact — `eth_abi.encode` would raise for larger values). -/
def natToBe32 (w : Nat) : List Nat :=
  (List.range 32).map (fun i => (w >>> (8 * (31 - i))) % 256)

/-- The 20 address bytes from a `0x`-prefixed 40-hex-character string. -/
def addressToBytes20 (acct : String) : List Nat :=
  hexCharsToBytes (hexBody acct.data)

/-- Model of `eth_abi.encode(["address", "uint256"], [account, amount])`: the address
left-padded to 32 bytes, then the amount as a 32-byte big-endian word. -/
def abiEncodeAddressUint (account : String) (amount : Nat) : List Nat :=
  (List.replicate 12 0 ++ addressToBytes20 account) ++ natToBe32 amount

/-- Model of `hash_leaf(index, account, amount_wei)`: the double Keccak of the ABI
encoding; `index` is deliberately not part of the hash input. -/
def hash_leaf (_index : Nat) (account : String) (amount_wei : Nat) : List Nat :=
  keccak (keccak (abiEncodeAddressUint account amount_wei))

/-- Python `bytes` comparison `a <= b`: lexicographic with the prefix rule. -/
def bytesLe : List Nat → List Nat → Bool
  | [], _ => true
  | _ :: _, [] => false
  | a :: as, b :: bs => if a < b then true else if b < a then false else bytesLe as bs

/-- Model of `hash_pair(a, b) = keccak(a + b) if a <= b else keccak(b + a)`. -/
def hash_pair (a b : List Nat) : List Nat :=
  if bytesLe a b then keccak (a ++ b) else keccak (b ++ a)

/-! ## `build_layers` (source lines 75–94) -/

/-- One pass of the inner `while i < len(cur)` loop: hash adjacent pairs,
duplicating the last node when the count is odd. -/
def pairUp : List (List Nat) → List (List Nat)
  | [] => []
  | [a] => [hash_pair a a]
  | a :: b :: t => hash_pair a b :: pairUp t

/-- The outer `while len(layers[-1]) > 1` loop.  `fuel` only bounds the
iteration count (the layer length strictly decreases, so any
`fuel ≥ length` is enough; `build_layers` passes the length itself). -/
def buildFrom : Nat → List (List Nat) → List (List (List Nat))
  | 0, cur => [cur]
  | fuel + 1, cur => if cur.length ≤ 1 then [cur] else cur :: buildFrom fuel (pairUp cur)

/-- Model of `build_layers(leaves)`: raises on an empty input, otherwise the layer
list from the leaves up to the single-node root layer. -/
def build_layers (leaves : List (List Nat)) : Except PyExc (List (List (List Nat))) :=
  if leaves.isEmpty then .error (.valueError "No leaves (empty input).")
  else .ok (buildFrom leaves.length leaves)

/-! ## `get_proof` (source lines 97–114) -/

/-- The sibling selection of one loop level: `layer[idx ^ 1]` when in range,
else `layer[idx]` (the duplicated-last-node case); a Python list access out
of range raises `IndexError`. -/
def getSibling (layer : List (List Nat)) (idx : Nat) : Except PyExc (List Nat) :=
  match layer.get? (idx ^^^ 1) with
  | some s => .ok s
  | none =>
    match layer.get? idx with
    | some s => .ok s
    | none => .error .indexError

/-- Model of `get_proof(layers, leaf_index)`: one hex-encoded sibling per layer below
the root (`for level in range(len(layers) - 1)`), halving the index at each
level.  There is no bounds check on `leaf_index`. -/
def get_proof : List (List (List Nat)) → Nat → Except PyExc (List String)
  | [], _ => .ok []
  | [_], _ => .ok []
  | layer :: next :: rest, idx => do
    let sib ← getSibling layer idx
    let tail ← get_proof (next :: rest) (idx / 2)
    pure (("0x" ++ bytesToHex sib) :: tail)

/-! ## The pure core of `main` (source lines 135–251)

Rows are the CSV rows as association lists (`csv.DictReader` output);
`unitArg` is `sys.argv[3]`. -/

/-- Lookup `r.get(col) or ""`. -/
def lookupRow (r : List (String × String)) (k : String) : String :=
  match r.find? (fun p => p.1 = k) with
  | some p => p.2
  | none => ""

/-- One entry of the `values` list: `(index, account, amount_wei, meta)`. -/
structure ValueEntry where
  idx : Nat
  account : String
  amountWei : Nat
  meta : List (String × String)
  deriving DecidableEq, Repr

/-- The normalize-and-filter loop (source lines 180–205): checksums the
address, parses the amount, skips zero amounts, and appends the rest with
contiguous indices (`len(values)` at the time of the append). -/
def processRows (unit : String) :
    List (List (String × String)) → Nat → List ValueEntry → Nat →
    Except PyExc (List ValueEntry × Nat)
  | [], _, values, skipped => .ok (values, skipped)
  | r :: rest, rowIdx, values, skipped =>
    let addrRaw := pyStrip (lookupRow r "wallet")
    if addrRaw = "" then
      .error (.systemExit ("Row " ++ toString (rowIdx + 1) ++ ": empty wallet address."))
    else
      match to_checksum_address addrRaw with
      | .error _ => .error (.systemExit ("Row " ++ toString (rowIdx + 1) ++ ": invalid address"))
      | .ok account =>
        let amtRaw := pyStrip (lookupRow r "rewardTotal")
        if amtRaw = "" then
          .error (.systemExit ("Row " ++ toString (rowIdx + 1) ++ ": empty rewardTotal."))
        else
          match parse_amount_to_wei amtRaw unit with
          | .error _ => .error (.systemExit ("Row " ++ toString (rowIdx + 1) ++ ": bad rewardTotal"))
          | .ok amountWei =>
            if amountWei = 0 then processRows unit rest (rowIdx + 1) values (skipped + 1)
            else processRows unit rest (rowIdx + 1)
              (values ++ [⟨values.length, account, amountWei, r⟩]) skipped

/-- One entry of the output `claims` map (the `amountEth` display field is
omitted, see the header comment). -/
structure ClaimObj where
  index : String
  amountWei : String
  proof : List String
  csv : List (String × String)
  deriving DecidableEq, Repr

/-- The `stats` block of the output document. -/
structure Stats where
  includedWallets : Nat
  skippedZeroAmountWallets : Nat
  inputRows : Nat
  deriving DecidableEq, Repr

/-- The output document (`out` dict of the source). -/
structure Output where
  merkleRoot : String
  unit : String
  leafEncoding : List String
  leafHash : String
  nodeHash : String
  claims : List (String × ClaimObj)
  stats : Stats
  deriving DecidableEq, Repr

/-- Python dict assignment `claims[account] = obj`: replace in place when
the key exists (insertion order preserved), else append. -/
def dictSet : List (String × ClaimObj) → String → ClaimObj → List (String × ClaimObj)
  | [], k, v => [(k, v)]
  | (k', v') :: t, k, v =>
    if k' = k then (k, v) :: t else (k', v') :: dictSet t k v

/-- The claims-building loop (source lines 217–228). -/
def buildClaims (layers : List (List (List Nat))) :
    List ValueEntry → List (String × ClaimObj) → Except PyExc (List (String × ClaimObj))
  | [], acc => .ok acc
  | e :: t, acc => do
    let pf ← get_proof layers e.idx
    buildClaims layers t
      (dictSet acc e.account ⟨toString e.idx, toString e.amountWei, pf, e.meta⟩)

/-- The body of `main` after argument and header validation: row
normalization, tree build and claim-table assembly (source lines 175–242). -/
def mainAfterChecks (rows : List (List (String × String))) (unit : String) :
    Except PyExc Output :=
  match processRows unit rows 0 [] 0 with
  | .error e => .error e
  | .ok (values, skipped) =>
    if values.isEmpty then
      .error (.systemExit "All rows were skipped (no wallets with non-zero rewardTotal).")
    else
      match build_layers (values.map (fun e => hash_leaf e.idx e.account e.amountWei)) with
      | .error e => .error e
      | .ok layers =>
        match layers.getLast? with
        | some (root :: _) =>
          match buildClaims layers values [] with
          | .error e => .error e
          | .ok claims =>
            .ok { merkleRoot := "0x" ++ bytesToHex root
                  unit := "wei"
                  leafEncoding := ["address", "uint256"]
                  leafHash := "keccak256(bytes.concat(keccak256(abi.encode(account, amountWei))))"
                  nodeHash := "keccak256(min(a,b) || max(a,b))  // sorted-pair hash"
                  claims := claims
                  stats := ⟨values.length, skipped, rows.length⟩ }
        | _ => .error .indexError

/-- The pure core of `main`: unit validation, header checks, row
normalization, tree build and claim-table assembly. -/
def main (rows : List (List (String × String))) (unitArg : String) :
    Except PyExc Output :=
  if pyLower (pyStrip unitArg) = "eth" ∨ pyLower (pyStrip unitArg) = "wei" then
    if rows.isEmpty then .error (.systemExit "Input CSV has no data rows.")
    else if (rows.headD []).any (fun p => p.1 = "wallet") = false then
      .error (.systemExit "Missing required column wallet in CSV header.")
    else if (rows.headD []).any (fun p => p.1 = "rewardTotal") = false then
      .error (.systemExit "Missing required column rewardTotal in CSV header.")
    else
      mainAfterChecks rows (pyLower (pyStrip unitArg))
  else .error (.systemExit "unit must be eth or wei")

/-! ## Definitions used to state the claims -/

instance {e a : Type} [DecidableEq e] [DecidableEq a] : DecidableEq (Except e a) :=
  fun x y =>
    match x, y with
    | .ok v, .ok w => decidable_of_iff (v = w) (by simp)
    | .error v, .error w => decidable_of_iff (v = w) (by simp)
    | .ok _, .error _ => isFalse (by simp)
    | .error _, .ok _ => isFalse (by simp)

/-- The sibling value `get_proof` appends for an in-range index:
`layer[idx ^ 1]` when in range, else `layer[idx]`. -/
def sibSpec (l : List (List Nat)) (idx : Nat) : List Nat :=
  if idx ^^^ 1 < l.length then l.getD (idx ^^^ 1) [] else l.getD idx []

/-- The verification fold of the spec: fold each decoded proof element into
the running hash with `hash_pair`. -/
def verifyFold (leaf : List Nat) (proof : List String) : List Nat :=
  proof.foldl (fun h p => hash_pair h (hexDecode p)) leaf

/-- The root of a layer list: `layers[-1][0]`. -/
def rootOf (layers : List (List (List Nat))) : Option (List Nat) :=
  layers.getLast?.bind List.head?

/-- Big-endian unsigned value of a byte string. -/
def beVal (l : List Nat) : Nat := l.foldl (fun acc x => acc * 256 + x) 0

/-- The claim's wording for the minor-unit grammar: a non-negative integer
literal with an optional single leading plus sign. -/
def isNonNegIntLiteral (l : List Char) : Bool := pyIsDigit (dropLeadingPlus l)

/-- The integer denoted by such a literal. -/
def intLiteralValue (l : List Char) : Nat := digitsToNat (dropLeadingPlus l)

/-- Whether a `main` run succeeded. -/
def outIsOk : Except PyExc Output → Bool
  | .ok _ => true
  | .error _ => false

/-- The `includedWallets` statistic of a `main` run (0 on failure). -/
def outIncluded : Except PyExc Output → Nat
  | .ok o => o.stats.includedWallets
  | .error _ => 0

/-- The number of entries of the output claims map (0 on failure). -/
def outClaimsCount : Except PyExc Output → Nat
  | .ok o => o.claims.length
  | .error _ => 0

/-- The `amountWei` fields of the output claims map, in order. -/
def outClaimAmounts : Except PyExc Output → List String
  | .ok o => o.claims.map (fun e => e.2.amountWei)
  | .error _ => []

/-- Two CSV rows whose wallet strings differ only in letter case and hence
resolve to the same canonical checksummed account. -/
def dupRows : List (List (String × String)) :=
  [[("wallet", "0xaaaaaaaaaaaaaaaaaaaaaaaaaaaaaaaaaaaaaaaa"), ("rewardTotal", "1")],
   [("wallet", "0xAAAAAAAAAAAAAAAAAAAAAAAAAAAAAAAAAAAAAAAA"), ("rewardTotal", "2")]]

/-- The 81-digit amount `10 ^ 80 + 1` (as an `eth`-unit decimal string):
its exact wei value needs 99 significant digits, beyond the
`getcontext().prec = 80` of the script. -/
def c5FailingInput : String := String.mk ('1' :: (List.replicate 79 '0' ++ ['1']))

/-- A one-row claims table (all-digit address, so its checksummed form is
itself). -/
def rows7 : List (List (String × String)) :=
  [[("wallet", "0x1111111111111111111111111111111111111111"), ("rewardTotal", "5")]]

/-- The `values` list `main` computes for `rows7` with unit `wei`. -/
def vals7 : List ValueEntry :=
  [⟨0, "0x1111111111111111111111111111111111111111", 5,
    [("wallet", "0x1111111111111111111111111111111111111111"), ("rewardTotal", "5")]⟩]

/-- The output document `main` produces for `rows7` with unit `wei`. -/
def out7 : Output :=
  { merkleRoot := "0xdc984b7043e0c8ae8e70bc0e6568af0135198234df994ba88ca915bbf0734048"
    unit := "wei"
    leafEncoding := ["address", "uint256"]
    leafHash := "keccak256(bytes.concat(keccak256(abi.encode(account, amountWei))))"
    nodeHash := "keccak256(min(a,b) || max(a,b))  // sorted-pair hash"
    claims := [("0x1111111111111111111111111111111111111111",
      ⟨"0", "5", [],
        [("wallet", "0x1111111111111111111111111111111111111111"), ("rewardTotal", "5")]⟩)]
    stats := ⟨1, 0, 1⟩ }

/-- A two-row table with one zero-amount row (skipped) and one non-zero row. -/
def rows10 : List (List (String × String)) :=
  [[("wallet", "0x2222222222222222222222222222222222222222"), ("rewardTotal", "7")],
   [("wallet", "0x3333333333333333333333333333333333333333"), ("rewardTotal", "0")]]

/-- The output document `main` produces for `rows10` with unit `wei`. -/
def out10 : Output :=
  { merkleRoot := "0xdbab0b93196101a262b6f891b5786c9868513d8fc48f8757ee197f9cf288d94b"
    unit := "wei"
    leafEncoding := ["address", "uint256"]
    leafHash := "keccak256(bytes.concat(keccak256(abi.encode(account, amountWei))))"
    nodeHash := "keccak256(min(a,b) || max(a,b))  // sorted-pair hash"
    claims := [("0x2222222222222222222222222222222222222222",
      ⟨"0", "7", [],
        [("wallet", "0x2222222222222222222222222222222222222222"), ("rewardTotal", "7")]⟩)]
    stats := ⟨1, 1, 2⟩ }

/-! ## Helper lemmas: natural-number XOR on sibling indices -/

theorem bit_false_eq (m : Nat) : Nat.bit false m = 2 * m := by simp [Nat.bit]

theorem bit_true_eq (m : Nat) : Nat.bit true m = 2 * m + 1 := by simp [Nat.bit]

theorem two_mul_xor_one (m : Nat) : (2 * m) ^^^ 1 = 2 * m + 1 := by
  have h := Nat.bitwise_bit (f := bne) rfl false m true 0
  simpa [bit_false_eq, bit_true_eq, HXor.hXor, Xor.xor] using h

theorem two_mul_add_one_xor_one (m : Nat) : (2 * m + 1) ^^^ 1 = 2 * m := by
  have h := Nat.bitwise_bit (f := bne) rfl true m true 0
  simpa [bit_false_eq, bit_true_eq, HXor.hXor, Xor.xor] using h

theorem xor_one_add_two (k : Nat) : (k + 2) ^^^ 1 = (k ^^^ 1) + 2 := by
  rcases Nat.even_or_odd k with ⟨m, hm⟩ | ⟨m, hm⟩
  · subst hm
    have h1 : m + m = 2 * m := by omega
    rw [h1]
    have h2 : 2 * m + 2 = 2 * (m + 1) := by omega
    rw [h2, two_mul_xor_one, two_mul_xor_one]
    omega
  · subst hm
    rw [two_mul_add_one_xor_one]
    have h2 : 2 * m + 1 + 2 = 2 * (m + 1) + 1 := by omega
    rw [h2, two_mul_add_one_xor_one]
    omega

theorem two_le_xor_one (k : Nat) (h : 2 ≤ k) : 2 ≤ k ^^^ 1 := by
  rcases Nat.even_or_odd k with ⟨m, hm⟩ | ⟨m, hm⟩
  · have h1 : k = 2 * m := by omega
    rw [h1, two_mul_xor_one]; omega
  · have h1 : k = 2 * m + 1 := by omega
    rw [h1, two_mul_add_one_xor_one]; omega

/-! ## Helper lemmas: keccak output shape and hex round trip -/

theorem keccakSqueeze_isBytes (A : List Nat) : isBytes (keccakSqueeze A) := by
  intro b hb
  simp only [keccakSqueeze, List.mem_map] at hb
  obtain ⟨n, -, rfl⟩ := hb
  exact Nat.mod_lt _ (by omega)

theorem keccak_isBytes (msg : List Nat) : isBytes (keccak msg) :=
  keccakSqueeze_isBytes _

theorem keccak_length (msg : List Nat) : (keccak msg).length = 32 := by
  simp [keccak, keccakSqueeze]

theorem hash_pair_isBytes (a b : List Nat) : isBytes (hash_pair a b) := by
  unfold hash_pair
  split <;> exact keccak_isBytes _

theorem hexCharVal_hexDigitChar : ∀ n, n < 16 → hexCharVal (hexDigitChar n) = n := by decide

theorem hexCharsToBytes_bytesToHexChars (bs : List Nat) (h : isBytes bs) :
    hexCharsToBytes (bytesToHexChars bs) = bs := by
  induction bs with
  | nil => rfl
  | cons b t ih =>
    have hb : b < 256 := h b (List.mem_cons_self _ _)
    have ht : isBytes t := fun x hx => h x (List.mem_cons_of_mem _ hx)
    have h1 : b / 16 < 16 := by omega
    have h2 : b % 16 < 16 := by omega
    simp only [bytesToHexChars, hexCharsToBytes, ih ht,
      hexCharVal_hexDigitChar _ h1, hexCharVal_hexDigitChar _ h2]
    congr 1
    omega

theorem hexDecode_bytesToHex (bs : List Nat) (h : isBytes bs) :
    hexDecode ("0x" ++ bytesToHex bs) = bs := by
  have hdata : ("0x" ++ bytesToHex bs).data = '0' :: 'x' :: bytesToHexChars bs := by
    simp [bytesToHex, String.data_append]
  simp [hexDecode, hdata, hexCharsToBytes_bytesToHexChars bs h]

/-! ## Helper lemmas: the byte order and sorted-pair commutativity -/

theorem bytesLe_total (a b : List Nat) : bytesLe a b = true ∨ bytesLe b a = true := by
  induction a generalizing b with
  | nil => left; rfl
  | cons x xs ih =>
    cases b with
    | nil => right; rfl
    | cons y ys =>
      rcases lt_trichotomy x y with h | h | h
      · left; simp [bytesLe, h]
      · subst h
        rcases ih ys with h' | h'
        · left; simp [bytesLe, h']
        · right; simp [bytesLe, h']
      · right; simp [bytesLe, h]

theorem bytesLe_antisymm (a b : List Nat) (h1 : bytesLe a b = true)
    (h2 : bytesLe b a = true) : a = b := by
  induction a generalizing b with
  | nil =>
    cases b with
    | nil => rfl
    | cons y ys => simp [bytesLe] at h2
  | cons x xs ih =>
    cases b with
    | nil => simp [bytesLe] at h1
    | cons y ys =>
      rcases lt_trichotomy x y with h | h | h
      · simp [bytesLe, h, Nat.not_lt.mpr (Nat.le_of_lt h)] at h2
      · subst h
        simp only [bytesLe, lt_irrefl, if_false] at h1 h2
        rw [ih ys h1 h2]
      · simp [bytesLe, h, Nat.not_lt.mpr (Nat.le_of_lt h)] at h1

theorem hash_pair_comm (a b : List Nat) : hash_pair a b = hash_pair b a := by
  unfold hash_pair
  rcases hab : bytesLe a b with - | -
  · rcases hba : bytesLe b a with - | -
    · rcases bytesLe_total a b with h | h
      · rw [hab] at h; exact absurd h (by simp)
      · rw [hba] at h; exact absurd h (by simp)
    · simp
  · rcases hba : bytesLe b a with - | -
    · simp
    · rw [bytesLe_antisymm a b hab hba]

/-! ## Helper lemmas: layers, siblings and the verification fold -/

theorem get?_eq_some_getD {α : Type} (l : List α) (d : α) (n : Nat)
    (h : n < l.length) : l.get? n = some (l.getD n d) := by
  rw [List.get?_eq_get h, List.getD_eq_get?, List.get?_eq_get h]
  rfl

theorem getSibling_ok (l : List (List Nat)) (idx : Nat) (h : idx < l.length) :
    getSibling l idx = .ok (sibSpec l idx) := by
  unfold getSibling
  by_cases h1 : idx ^^^ 1 < l.length
  · rw [get?_eq_some_getD _ [] _ h1]
    simp [sibSpec, h1]
  · rw [List.get?_eq_none.mpr (by omega), get?_eq_some_getD _ [] _ h]
    simp [sibSpec, h1]

theorem getD_isBytes (cur : List (List Nat)) (hbytes : ∀ l ∈ cur, isBytes l)
    (j : Nat) : isBytes (cur.getD j []) := by
  by_cases hj : j < cur.length
  · rw [List.getD_eq_get?, List.get?_eq_get hj]
    exact hbytes _ (List.get_mem _ _ _)
  · rw [List.getD_eq_get?, List.get?_eq_none.mpr (by omega)]
    intro b hb
    simp at hb

theorem sibSpec_isBytes (cur : List (List Nat)) (hbytes : ∀ l ∈ cur, isBytes l)
    (idx : Nat) : isBytes (sibSpec cur idx) := by
  unfold sibSpec
  split <;> exact getD_isBytes cur hbytes _

theorem pairUp_length (l : List (List Nat)) :
    (pairUp l).length = (l.length + 1) / 2 := by
  induction l using pairUp.induct with
  | case1 => rfl
  | case2 a => simp [pairUp]
  | case3 a b t ih =>
    simp only [pairUp, List.length_cons, ih]
    omega

theorem pairUp_ne_nil (l : List (List Nat)) (h : l ≠ []) : pairUp l ≠ [] := by
  have hl : 0 < l.length := List.length_pos.mpr h
  have h2 : 0 < (pairUp l).length := by rw [pairUp_length]; omega
  exact List.ne_nil_of_length_pos h2

theorem pairUp_isBytes (l : List (List Nat)) :
    ∀ x ∈ pairUp l, isBytes x := by
  induction l using pairUp.induct with
  | case1 => intro x hx; simp [pairUp] at hx
  | case2 a =>
    intro x hx
    simp only [pairUp, List.mem_singleton] at hx
    subst hx
    exact hash_pair_isBytes _ _
  | case3 a b t ih =>
    intro x hx
    simp only [pairUp, List.mem_cons] at hx
    rcases hx with rfl | hx
    · exact hash_pair_isBytes _ _
    · exact ih x hx

theorem getD_cons_cons_add_two {α : Type} (a b : α) (t : List α) (n : Nat)
    (d : α) : (a :: b :: t).getD (n + 2) d = t.getD n d := by
  have h1 : n + 2 = (n + 1) + 1 := by omega
  rw [h1, List.getD_cons_succ, List.getD_cons_succ]

theorem sibSpec_cons_cons (a b : List Nat) (t : List (List Nat)) (k : Nat) :
    sibSpec (a :: b :: t) (k + 2) = sibSpec t k := by
  unfold sibSpec
  rw [xor_one_add_two]
  by_cases h : k ^^^ 1 < t.length
  · have h2 : (k ^^^ 1) + 2 < (a :: b :: t).length := by
      simp only [List.length_cons]; omega
    rw [if_pos h, if_pos h2, getD_cons_cons_add_two]
  · have h2 : ¬ ((k ^^^ 1) + 2 < (a :: b :: t).length) := by
      simp only [List.length_cons]; omega
    rw [if_neg h, if_neg h2, getD_cons_cons_add_two]

theorem pairUp_getD (l : List (List Nat)) (idx : Nat) (h : idx < l.length) :
    (pairUp l).getD (idx / 2) [] = hash_pair (l.getD idx []) (sibSpec l idx) := by
  induction l using pairUp.induct generalizing idx with
  | case1 => simp at h
  | case2 a =>
    have h0 : idx = 0 := by simp at h; omega
    subst h0
    have h01 : (0 : Nat) ^^^ 1 = 1 := by decide
    simp [pairUp, sibSpec, h01]
  | case3 a b t ih =>
    match idx with
    | 0 =>
      have h01 : (0 : Nat) ^^^ 1 = 1 := by decide
      have hlt : (1 : Nat) < (a :: b :: t).length := by simp
      simp [pairUp, sibSpec, h01, hlt]
    | 1 =>
      have h10 : (1 : Nat) ^^^ 1 = 0 := by decide
      have hlt : (0 : Nat) < (a :: b :: t).length := by simp
      simp [pairUp, sibSpec, h10, hlt, hash_pair_comm]
    | (k + 2) =>
      have hk : k < t.length := by simp at h; omega
      have hdiv : (k + 2) / 2 = k / 2 + 1 := by omega
      rw [hdiv, sibSpec_cons_cons]
      simp only [pairUp, List.getD_cons_succ]
      rw [ih k hk]

theorem buildFrom_ne_nil (fuel : Nat) (cur : List (List Nat)) :
    buildFrom fuel cur ≠ [] := by
  cases fuel with
  | zero => simp [buildFrom]
  | succ f =>
    simp only [buildFrom]
    split <;> simp

/-- Core induction for proof validity: over any sufficient fuel, the proof
extracted for an in-range index folds back to the root. -/
theorem buildFrom_fold (fuel : Nat) :
    ∀ (cur : List (List Nat)) (idx : Nat), cur ≠ [] → cur.length ≤ fuel →
    idx < cur.length → (∀ l ∈ cur, isBytes l) →
    ∃ pf root,
      get_proof (buildFrom fuel cur) idx = .ok pf ∧
      rootOf (buildFrom fuel cur) = some root ∧
      verifyFold (cur.getD idx []) pf = root := by
  induction fuel with
  | zero =>
    intro cur idx hne hlen _ _
    have := List.length_pos.mpr hne
    omega
  | succ f ih =>
    intro cur idx hne hlen hidx hbytes
    by_cases hle : cur.length ≤ 1
    · have h1 : cur.length = 1 := by
        have := List.length_pos.mpr hne
        omega
      have hidx0 : idx = 0 := by omega
      subst hidx0
      obtain ⟨x, hx⟩ := List.length_eq_one.mp h1
      subst hx
      refine ⟨[], x, ?_, ?_, rfl⟩
      · simp [buildFrom, get_proof]
      · simp [buildFrom, rootOf]
    · have hlen2 : 2 ≤ cur.length := by omega
      have hpne : pairUp cur ≠ [] := pairUp_ne_nil cur hne
      have hplen : (pairUp cur).length = (cur.length + 1) / 2 := pairUp_length cur
      have hfuel' : (pairUp cur).length ≤ f := by omega
      have hidx' : idx / 2 < (pairUp cur).length := by omega
      obtain ⟨pf, root, hgp, hroot, hfold⟩ :=
        ih (pairUp cur) (idx / 2) hpne hfuel' hidx' (pairUp_isBytes cur)
      have hbf : buildFrom (f + 1) cur = cur :: buildFrom f (pairUp cur) := by
        simp [buildFrom, hle]
      obtain ⟨L1, Ls, hL⟩ : ∃ L1 Ls, buildFrom f (pairUp cur) = L1 :: Ls := by
        cases hcase : buildFrom f (pairUp cur) with
        | nil => exact absurd hcase (buildFrom_ne_nil f _)
        | cons L1 Ls => exact ⟨L1, Ls, rfl⟩
      refine ⟨("0x" ++ bytesToHex (sibSpec cur idx)) :: pf, root, ?_, ?_, ?_⟩
      · rw [hbf, hL]
        simp only [get_proof, getSibling_ok cur idx hidx, ← hL, hgp]
        rfl
      · rw [hbf, hL]
        unfold rootOf at hroot ⊢
        rw [List.getLast?_cons_cons, ← hL]
        exact hroot
      · unfold verifyFold
        simp only [List.foldl_cons]
        rw [hexDecode_bytesToHex _ (sibSpec_isBytes cur hbytes idx),
          ← pairUp_getD cur idx hidx]
        exact hfold

/-- Core induction for the layer-shape invariant: head, halving chain,
one-node last layer, and at least two nodes on every non-last layer. -/
theorem buildFrom_shape (fuel : Nat) :
    ∀ (cur : List (List Nat)), cur ≠ [] → cur.length ≤ fuel →
    (buildFrom fuel cur).head? = some cur ∧
    (∀ k, k + 1 < (buildFrom fuel cur).length →
      ((buildFrom fuel cur).getD (k + 1) []).length
        = (((buildFrom fuel cur).getD k []).length + 1) / 2) ∧
    ((buildFrom fuel cur).getLast?.map List.length) = some 1 ∧
    (∀ k, k + 1 < (buildFrom fuel cur).length →
      2 ≤ ((buildFrom fuel cur).getD k []).length) := by
  induction fuel with
  | zero =>
    intro cur hne hlen
    have := List.length_pos.mpr hne
    omega
  | succ f ih =>
    intro cur hne hlen
    by_cases hle : cur.length ≤ 1
    · have h1 : cur.length = 1 := by
        have := List.length_pos.mpr hne
        omega
      have hbf : buildFrom (f + 1) cur = [cur] := by simp [buildFrom, hle]
      rw [hbf]
      refine ⟨rfl, ?_, by simp [h1], ?_⟩ <;> intro k hk <;> simp at hk
    · have h2 : 2 ≤ cur.length := by omega
      have hbf : buildFrom (f + 1) cur = cur :: buildFrom f (pairUp cur) := by
        simp [buildFrom, hle]
      have hpne := pairUp_ne_nil cur hne
      have hplen := pairUp_length cur
      have hf' : (pairUp cur).length ≤ f := by omega
      obtain ⟨ihh, ihc, ihl, ihg⟩ := ih (pairUp cur) hpne hf'
      obtain ⟨L1, Ls, hL⟩ : ∃ L1 Ls, buildFrom f (pairUp cur) = L1 :: Ls := by
        cases hcase : buildFrom f (pairUp cur) with
        | nil => exact absurd hcase (buildFrom_ne_nil f _)
        | cons L1 Ls => exact ⟨L1, Ls, rfl⟩
      have hL1 : L1 = pairUp cur := by
        rw [hL] at ihh
        simpa using ihh
      rw [hbf]
      refine ⟨by simp, ?_, ?_, ?_⟩
      · intro k hk
        cases k with
        | zero =>
          rw [hL]
          simp only [List.getD_cons_succ, List.getD_cons_zero]
          rw [hL1, hplen]
        | succ k =>
          have hk' : k + 1 < (buildFrom f (pairUp cur)).length := by
            simp at hk
            omega
          have := ihc k hk'
          simpa using this
      · rw [hL, List.getLast?_cons_cons, ← hL]
        exact ihl
      · intro k hk
        cases k with
        | zero => simpa using h2
        | succ k =>
          have hk' : k + 1 < (buildFrom f (pairUp cur)).length := by
            simp at hk
            omega
          have := ihg k hk'
          simpa using this

/-! ## Helper lemmas: big-endian value versus byte-lexicographic order -/

theorem beVal_foldl (xs : List Nat) :
    ∀ acc, xs.foldl (fun a y => a * 256 + y) acc
      = acc * 256 ^ xs.length + xs.foldl (fun a y => a * 256 + y) 0 := by
  induction xs with
  | nil => intro acc; simp
  | cons y t ih =>
    intro acc
    simp only [List.foldl_cons, List.length_cons]
    rw [ih (acc * 256 + y), ih (0 * 256 + y)]
    ring

theorem beVal_cons (x : Nat) (xs : List Nat) :
    beVal (x :: xs) = x * 256 ^ xs.length + beVal xs := by
  unfold beVal
  simp only [List.foldl_cons]
  rw [beVal_foldl xs (0 * 256 + x)]
  ring_nf

theorem beVal_lt (xs : List Nat) (h : isBytes xs) : beVal xs < 256 ^ xs.length := by
  induction xs with
  | nil => simp [beVal]
  | cons x t ih =>
    have hx : x < 256 := h x (List.mem_cons_self _ _)
    have ht : beVal t < 256 ^ t.length := ih (fun b hb => h b (List.mem_cons_of_mem _ hb))
    rw [beVal_cons]
    calc x * 256 ^ t.length + beVal t
        < x * 256 ^ t.length + 256 ^ t.length := by omega
      _ = (x + 1) * 256 ^ t.length := by ring
      _ ≤ 256 * 256 ^ t.length := Nat.mul_le_mul_right _ (by omega)
      _ = 256 ^ (x :: t).length := by
          rw [List.length_cons, pow_succ]
          ring

theorem bytesLe_iff_beVal (a : List Nat) :
    ∀ b : List Nat, a.length = b.length → isBytes a → isBytes b →
    (bytesLe a b = true ↔ beVal a ≤ beVal b) := by
  induction a with
  | nil =>
    intro b hlen _ _
    have hb : b = [] := List.length_eq_zero.mp hlen.symm
    subst hb
    simp [bytesLe]
  | cons x xs ih =>
    intro b hlen ha hb
    cases b with
    | nil => simp at hlen
    | cons y ys =>
      have hlen' : xs.length = ys.length := by simpa using hlen
      have hx : x < 256 := ha x (List.mem_cons_self _ _)
      have hy : y < 256 := hb y (List.mem_cons_self _ _)
      have hxs : isBytes xs := fun v hv => ha v (List.mem_cons_of_mem _ hv)
      have hys : isBytes ys := fun v hv => hb v (List.mem_cons_of_mem _ hv)
      have hvx : beVal xs < 256 ^ xs.length := beVal_lt xs hxs
      have hvy : beVal ys < 256 ^ ys.length := beVal_lt ys hys
      rw [beVal_cons, beVal_cons, ← hlen']
      rcases lt_trichotomy x y with hlt | heq | hgt
      · have hle : x * 256 ^ xs.length + beVal xs ≤ y * 256 ^ xs.length + beVal ys := by
          have h1 : x * 256 ^ xs.length + beVal xs < (x + 1) * 256 ^ xs.length := by
            have := hvx
            nlinarith [pow_pos (show 0 < 256 by norm_num) xs.length]
          have h2 : (x + 1) * 256 ^ xs.length ≤ y * 256 ^ xs.length :=
            Nat.mul_le_mul_right _ (by omega)
          omega
        simp [bytesLe, hlt, hle]
      · subst heq
        simp only [bytesLe, lt_irrefl, if_false]
        rw [ih ys hlen' hxs hys]
        constructor
        · intro h
          omega
        · intro h
          omega
      · have hgt2 : ¬ (x * 256 ^ xs.length + beVal xs ≤ y * 256 ^ xs.length + beVal ys) := by
          have h1 : y * 256 ^ xs.length + beVal ys < (y + 1) * 256 ^ xs.length := by
            rw [hlen']
            nlinarith [pow_pos (show 0 < 256 by norm_num) ys.length]
          have h2 : (y + 1) * 256 ^ xs.length ≤ x * 256 ^ xs.length :=
            Nat.mul_le_mul_right _ (by omega)
          omega
        simp [bytesLe, hgt, Nat.not_lt.mpr (Nat.le_of_lt hgt), hgt2]

/-! ## Helper lemmas: the row-processing loop and `main` -/

theorem processRows_count (unit : String) (rows : List (List (String × String))) :
    ∀ rowIdx values skipped vals sk,
    processRows unit rows rowIdx values skipped = .ok (vals, sk) →
    vals.length + sk = values.length + skipped + rows.length := by
  induction rows with
  | nil =>
    intro rowIdx values skipped vals sk h
    simp only [processRows] at h
    cases h
    simp
  | cons r rest ih =>
    intro rowIdx values skipped vals sk h
    simp only [processRows] at h
    split at h
    · cases h
    · split at h
      · cases h
      · split at h
        · cases h
        · split at h
          · cases h
          · split at h
            · have := ih _ _ _ _ _ h
              simp only [List.length_cons]
              omega
            · have := ih _ _ _ _ _ h
              simp only [List.length_append, List.length_cons, List.length_nil] at this
              simp only [List.length_cons]
              omega

theorem processRows_indices (unit : String) (rows : List (List (String × String))) :
    ∀ rowIdx values skipped vals sk,
    processRows unit rows rowIdx values skipped = .ok (vals, sk) →
    values.map ValueEntry.idx = List.range values.length →
    vals.map ValueEntry.idx = List.range vals.length := by
  induction rows with
  | nil =>
    intro rowIdx values skipped vals sk h hv
    simp only [processRows] at h
    cases h
    exact hv
  | cons r rest ih =>
    intro rowIdx values skipped vals sk h hv
    simp only [processRows] at h
    split at h
    · cases h
    · split at h
      · cases h
      · split at h
        · cases h
        · split at h
          · cases h
          · split at h
            · exact ih _ _ _ _ _ h hv
            · refine ih _ _ _ _ _ h ?_
              simp only [List.map_append, List.length_append, List.map_cons,
                List.map_nil, List.length_cons, List.length_nil, hv]
              rw [List.range_succ]

theorem mainAfterChecks_ok_inv (rows : List (List (String × String)))
    (unit : String) (out : Output) (h : mainAfterChecks rows unit = .ok out) :
    ∃ values skipped layers root rest claims,
      processRows unit rows 0 [] 0 = .ok (values, skipped) ∧
      values ≠ [] ∧
      build_layers (values.map (fun e => hash_leaf e.idx e.account e.amountWei))
        = .ok layers ∧
      layers.getLast? = some (root :: rest) ∧
      buildClaims layers values [] = .ok claims ∧
      out.merkleRoot = "0x" ++ bytesToHex root ∧
      out.claims = claims ∧
      out.stats = ⟨values.length, skipped, rows.length⟩ := by
  unfold mainAfterChecks at h
  split at h
  · cases h
  · rename_i values_skipped values skipped heq
    split at h
    · cases h
    · rename_i hne
      split at h
      · cases h
      · rename_i layers hlayers
        split at h
        · rename_i root rest hlast
          split at h
          · cases h
          · rename_i claims hclaims
            cases h
            exact ⟨values, skipped, layers, root, rest, claims, heq,
              by simpa using hne, hlayers, hlast, hclaims, rfl, rfl, rfl⟩
        · cases h

theorem main_ok_inv (rows : List (List (String × String))) (unitArg : String)
    (out : Output) (h : main rows unitArg = .ok out) :
    ∃ values skipped layers root rest claims,
      processRows (pyLower (pyStrip unitArg)) rows 0 [] 0 = .ok (values, skipped) ∧
      values ≠ [] ∧
      build_layers (values.map (fun e => hash_leaf e.idx e.account e.amountWei))
        = .ok layers ∧
      layers.getLast? = some (root :: rest) ∧
      buildClaims layers values [] = .ok claims ∧
      out.merkleRoot = "0x" ++ bytesToHex root ∧
      out.claims = claims ∧
      out.stats = ⟨values.length, skipped, rows.length⟩ := by
  unfold main at h
  split at h
  · split at h
    · cases h
    · split at h
      · cases h
      · split at h
        · cases h
        · exact mainAfterChecks_ok_inv rows _ out h
  · cases h

theorem build_layers_ok_inv (leaves : List (List Nat))
    (layers : List (List (List Nat))) (h : build_layers leaves = .ok layers) :
    leaves ≠ [] ∧ layers = buildFrom leaves.length leaves := by
  unfold build_layers at h
  split at h
  · cases h
  · rename_i hne
    cases h
    exact ⟨fun hnil => hne (by simp [hnil]), rfl⟩

/-! ## The claims -/

/-- C1.  Proof validity: for every ordered non-empty list of (byte-string)
leaves and every leaf index `i < len(leaves)`, `build_layers` succeeds,
`get_proof` succeeds, and folding the leaf at `i` through `hash_pair` with
the successive (hex-decoded) proof elements reproduces the single node of
the last layer. -/
theorem proof_validity (leaves : List (List Nat)) (i : Nat)
    (hne : leaves ≠ []) (hi : i < leaves.length)
    (hb : ∀ l ∈ leaves, isBytes l) :
    ∃ layers pf root,
      build_layers leaves = .ok layers ∧
      get_proof layers i = .ok pf ∧
      rootOf layers = some root ∧
      verifyFold (leaves.getD i []) pf = root := by
  obtain ⟨pf, root, h1, h2, h3⟩ := buildFrom_fold leaves.length leaves i hne le_rfl hi hb
  refine ⟨buildFrom leaves.length leaves, pf, root, ?_, h1, h2, h3⟩
  unfold build_layers
  rw [if_neg (by simp [hne])]

/-- Witness for C1 at the concrete leaf list `[[17]]` and index 0. -/
theorem proof_validity_witness :
    ∃ layers pf root,
      build_layers [[17]] = .ok layers ∧
      get_proof layers 0 = .ok pf ∧
      rootOf layers = some root ∧
      verifyFold (([[17]] : List (List Nat)).getD 0 []) pf = root :=
  proof_validity [[17]] 0 (by decide) (by decide) (by decide)

/-- C3, counterexample.  `build_layers` on a single leaf yields the one-layer
structure `[[[7]]]`; the index 1 is out of range (`1 ≥ len(layers[0])`), yet
`get_proof` does not fail with an index error: it returns the empty proof. -/
theorem get_proof_out_of_range_succeeds :
    build_layers [[7]] = .ok [[[7]]] ∧
    ([[7]] : List (List Nat)).length ≤ 1 ∧
    get_proof [[[7]]] 1 = .ok [] := by
  refine ⟨rfl, by decide, rfl⟩

/-- C3, amended.  `get_proof` performs no bounds check on `leaf_index`: on a
single-layer tree it returns the empty proof for every index; an index error
surfaces only when an out-of-bounds list access happens during the walk,
e.g. on a two-leaf tree for every index at least 2. -/
theorem get_proof_no_bounds_check :
    (∀ (x : List Nat) (i : Nat),
      build_layers [x] = .ok [[x]] ∧ get_proof [[x]] i = .ok []) ∧
    (∀ (a b : List Nat) (i : Nat), 2 ≤ i →
      build_layers [a, b] = .ok [[a, b], [hash_pair a b]] ∧
      get_proof [[a, b], [hash_pair a b]] i = .error .indexError) := by
  constructor
  · intro x i
    exact ⟨rfl, rfl⟩
  · intro a b i hi
    refine ⟨rfl, ?_⟩
    have h1 : ([a, b] : List (List Nat)).get? (i ^^^ 1) = none :=
      List.get?_eq_none.mpr (by have := two_le_xor_one i hi; simpa using this)
    have h2 : ([a, b] : List (List Nat)).get? i = none :=
      List.get?_eq_none.mpr (by simpa using hi)
    simp only [get_proof, getSibling]
    rw [h1, h2]
    rfl

/-- Witness for the amended C3 at index 2 on a two-leaf tree. -/
theorem get_proof_no_bounds_check_witness :
    build_layers [[1], [2]] = .ok [[[1], [2]], [hash_pair [1] [2]]] ∧
    get_proof [[[1], [2]], [hash_pair [1] [2]]] 2 = .error .indexError :=
  get_proof_no_bounds_check.2 [1] [2] 2 (by decide)

/-- C4.  Odd-count duplication: appending a node to an even-length layer
pairs it with itself, at any layer (`pairUp` is the per-layer pass); and
concretely three leaves produce `[nodeHash(L0,L1), nodeHash(L2,L2)]` and a
one-node root layer. -/
theorem odd_duplication :
    (∀ (l : List (List Nat)) (x : List Nat), l.length % 2 = 0 →
      pairUp (l ++ [x]) = pairUp l ++ [hash_pair x x]) ∧
    (∀ L0 L1 L2 : List Nat,
      build_layers [L0, L1, L2] = .ok
        [[L0, L1, L2],
         [hash_pair L0 L1, hash_pair L2 L2],
         [hash_pair (hash_pair L0 L1) (hash_pair L2 L2)]]) := by
  constructor
  · intro l x
    induction l using pairUp.induct with
    | case1 => intro _; rfl
    | case2 a => intro hl; simp at hl
    | case3 a b t ih =>
      intro hl
      have ht : t.length % 2 = 0 := by
        simp only [List.length_cons] at hl
        omega
      simp only [List.cons_append, pairUp, List.append_eq]
      rw [ih ht]
  · intro L0 L1 L2
    rfl

/-- Witness for C4: the general odd-duplication part applied at a concrete
even-length layer, plus the concrete three-leaf tree. -/
theorem odd_duplication_witness :
    pairUp ([[1], [2]] ++ [[3]]) = pairUp [[1], [2]] ++ [hash_pair [3] [3]] ∧
    build_layers [[4], [5], [6]] = .ok
      [[[4], [5], [6]],
       [hash_pair [4] [5], hash_pair [6] [6]],
       [hash_pair (hash_pair [4] [5]) (hash_pair [6] [6])]] :=
  ⟨odd_duplication.1 [[1], [2]] [3] (by decide), odd_duplication.2 [4] [5] [6]⟩

/-- C6.  Layer-shape invariant: for every non-empty leaf list the produced
layer sequence starts with the leaves, each next layer has
`ceil(len/2) = (len+1)/2` nodes, the final layer has exactly one node, and
every non-final layer still has at least two nodes (the construction
terminates exactly at the one-node layer). -/
theorem layer_shape (leaves : List (List Nat)) (layers : List (List (List Nat)))
    (h : build_layers leaves = .ok layers) :
    layers.head? = some leaves ∧
    (∀ k, k + 1 < layers.length →
      (layers.getD (k + 1) []).length = ((layers.getD k []).length + 1) / 2) ∧
    (layers.getLast?.map List.length) = some 1 ∧
    (∀ k, k + 1 < layers.length → 2 ≤ (layers.getD k []).length) := by
  obtain ⟨hne, rfl⟩ := build_layers_ok_inv leaves layers h
  exact buildFrom_shape leaves.length leaves hne le_rfl

/-- Witness for C6 at the concrete leaf list `[[9]]`. -/
theorem layer_shape_witness :
    ([[[9]]] : List (List (List Nat))).head? = some [[9]] ∧
    (∀ k, k + 1 < ([[[9]]] : List (List (List Nat))).length →
      (([[[9]]] : List (List (List Nat))).getD (k + 1) []).length
        = ((([[[9]]] : List (List (List Nat))).getD k []).length + 1) / 2) ∧
    (([[[9]]] : List (List (List Nat))).getLast?.map List.length) = some 1 ∧
    (∀ k, k + 1 < ([[[9]]] : List (List (List Nat))).length →
      2 ≤ (([[[9]]] : List (List (List Nat))).getD k []).length) :=
  layer_shape [[9]] [[[9]]] rfl

/-- C8.  Sorted-pair commutativity for 32-byte values, together with the
agreement of the byte-lexicographic order used by `hash_pair` with the
big-endian unsigned-integer order. -/
theorem sorted_pair_commutativity (a b : List Nat)
    (ha : a.length = 32 ∧ isBytes a) (hb : b.length = 32 ∧ isBytes b) :
    hash_pair a b = hash_pair b a ∧
    (bytesLe a b = true ↔ beVal a ≤ beVal b) :=
  ⟨hash_pair_comm a b, bytesLe_iff_beVal a b (ha.1.trans hb.1.symm) ha.2 hb.2⟩

/-- Witness for C8 at two concrete 32-byte values. -/
theorem sorted_pair_commutativity_witness :
    hash_pair (List.replicate 32 3) (List.replicate 32 200)
      = hash_pair (List.replicate 32 200) (List.replicate 32 3) ∧
    (bytesLe (List.replicate 32 3) (List.replicate 32 200) = true ↔
      beVal (List.replicate 32 3) ≤ beVal (List.replicate 32 200)) :=
  sorted_pair_commutativity (List.replicate 32 3) (List.replicate 32 200)
    (by constructor <;> decide) (by constructor <;> decide)

/-- C9.  Minor-unit parsing: with `unit = "wei"` the parse succeeds exactly
when the whitespace-stripped input is a non-negative integer literal with an
optional single leading plus, returning the denoted integer, and fails with
a `ValueError` otherwise. -/
theorem minor_unit_parse (s : String) :
    (∀ n : Nat, parse_amount_to_wei s "wei" = .ok n ↔
      (isNonNegIntLiteral (pyStrip s).data = true ∧
        n = intLiteralValue (pyStrip s).data)) ∧
    (isNonNegIntLiteral (pyStrip s).data = false →
      ∃ m, parse_amount_to_wei s "wei" = .error (.valueError m)) := by
  have hdata : (pyStrip s).data = pyStripChars s.data := rfl
  unfold parse_amount_to_wei isNonNegIntLiteral intLiteralValue
  rw [hdata, if_pos rfl]
  by_cases hd : pyIsDigit (dropLeadingPlus (pyStripChars s.data)) = true
  · rw [if_pos hd]
    constructor
    · intro n
      constructor
      · intro h
        cases h
        exact ⟨hd, rfl⟩
      · rintro ⟨-, rfl⟩
        rfl
    · intro hfalse
      rw [hd] at hfalse
      cases hfalse
  · rw [if_neg hd]
    constructor
    · intro n
      constructor
      · intro h
        cases h
      · rintro ⟨hlit, -⟩
        exact absurd hlit hd
    · intro _
      exact ⟨_, rfl⟩

/-- Witness for C9: a literal with leading plus and surrounding whitespace
parses to its value; a non-literal fails with a `ValueError`. -/
theorem minor_unit_parse_witness :
    parse_amount_to_wei " +42 " "wei" = .ok 42 ∧
    (∃ m, parse_amount_to_wei "4.0" "wei" = .error (.valueError m)) :=
  ⟨((minor_unit_parse " +42 ").1 42).mpr (by constructor <;> decide),
   (minor_unit_parse "4.0").2 (by decide)⟩

set_option maxRecDepth 100000 in
/-- C2.  The duplicate-account check described by the spec does not exist:
for two rows whose wallets differ only in letter case (hence the same
canonical checksummed account), `main` succeeds, both rows become tree
leaves (`includedWallets = 2`), and the output claims map holds only the
last row's entry (`amountWei = "2"`), silently dropping the first payout. -/
theorem duplicate_account_overwritten :
    outIsOk (main dupRows "wei") = true ∧
    outIncluded (main dupRows "wei") = 2 ∧
    outClaimsCount (main dupRows "wei") = 1 ∧
    outClaimAmounts (main dupRows "wei") = ["2"] :=
  ⟨rfl, rfl, rfl, rfl⟩

set_option maxRecDepth 100000 in
/-- C5.  Exactness fails beyond 80 significant digits: the 81-digit amount
`10^80 + 1` in display (`eth`) mode is a valid non-negative decimal with no
fractional digits, whose exact wei value is `(10^80 + 1) * 10^18 =
10^98 + 10^18`; the code instead returns the silently rounded `10^98`
(the context precision of 80 drops the low term), contradicting the claimed
"no rounding is ever performed". -/
theorem amount_precision_loss :
    parse_amount_to_wei c5FailingInput "eth" = .ok (10 ^ 98) ∧
    (10 ^ 80 + 1) * 10 ^ 18 = 10 ^ 98 + 10 ^ 18 ∧
    (10 ^ 98 : Nat) ≠ 10 ^ 98 + 10 ^ 18 := by
  refine ⟨by decide, by ring, ?_⟩
  have h : (0 : Nat) < 10 ^ 18 := pow_pos (by norm_num) 18
  omega

/-- C7.  Single-claim edge case: when the processed table has exactly one
non-zero claim, that claim gets index 0, the published root is exactly its
double-keccak leaf hash, and its proof is the empty sequence. -/
theorem single_claim (rows : List (List (String × String))) (u : String)
    (out : Output) (vals : List ValueEntry) (sk : Nat)
    (hm : main rows u = .ok out)
    (hp : processRows (pyLower (pyStrip u)) rows 0 [] 0 = .ok (vals, sk))
    (h1 : vals.length = 1) :
    ∃ e : ValueEntry, vals = [e] ∧ e.idx = 0 ∧
      out.merkleRoot = "0x" ++ bytesToHex (hash_leaf 0 e.account e.amountWei) ∧
      out.claims = [(e.account, ⟨"0", toString e.amountWei, [], e.meta⟩)] := by
  obtain ⟨values, skipped, layers, root, rest, claims, hp', hne, hlay, hlast,
    hcl, hroot, hclaims, hstats⟩ := main_ok_inv rows u out hm
  rw [hp] at hp'
  have hveq : vals = values ∧ sk = skipped := by
    have h2 := hp'
    simp at h2
    exact h2
  obtain ⟨hveq, hseq⟩ := hveq
  subst hveq
  subst hseq
  have hidx := processRows_indices (pyLower (pyStrip u)) rows 0 [] 0 vals sk hp (by simp)
  obtain ⟨e, he⟩ := List.length_eq_one.mp h1
  subst he
  have he0 : e.idx = 0 := by simpa [List.range_succ] using hidx
  have hmap : ([e].map (fun v => hash_leaf v.idx v.account v.amountWei))
      = [hash_leaf 0 e.account e.amountWei] := by simp [he0]
  rw [hmap] at hlay
  obtain ⟨-, hlayers⟩ := build_layers_ok_inv _ _ hlay
  have hlay1 : layers = [[hash_leaf 0 e.account e.amountWei]] := hlayers
  subst hlay1
  have hr : hash_leaf 0 e.account e.amountWei = root ∧ rest = [] := by
    simp at hlast
    exact hlast
  have hclval : buildClaims [[hash_leaf 0 e.account e.amountWei]] [e] []
      = .ok [(e.account, ⟨toString e.idx, toString e.amountWei, [], e.meta⟩)] := rfl
  rw [hclval] at hcl
  have hcl2 : claims = [(e.account, ⟨toString e.idx, toString e.amountWei, [], e.meta⟩)] := by
    have h3 := hcl
    simp at h3
    exact h3.symm
  refine ⟨e, rfl, he0, ?_, ?_⟩
  · rw [hroot, ← hr.1]
  · rw [hclaims, hcl2, he0]
    rfl

set_option maxRecDepth 100000 in
/-- Witness for C7 at the concrete one-row table `rows7` with unit `wei`. -/
theorem single_claim_witness :
    ∃ e : ValueEntry, vals7 = [e] ∧ e.idx = 0 ∧
      out7.merkleRoot = "0x" ++ bytesToHex (hash_leaf 0 e.account e.amountWei) ∧
      out7.claims = [(e.account, ⟨"0", toString e.amountWei, [], e.meta⟩)] :=
  single_claim rows7 "wei" out7 vals7 0 rfl rfl rfl

/-- C10.  Stats consistency: whenever `main` succeeds,
`includedWallets + skippedZeroAmountWallets = inputRows`, and
`includedWallets` equals the number of leaves of layer 0 of the tree
(the entries indexed `0..n-1`). -/
theorem stats_consistency (rows : List (List (String × String))) (u : String)
    (out : Output) (hm : main rows u = .ok out) :
    out.stats.includedWallets + out.stats.skippedZeroAmountWallets
      = out.stats.inputRows ∧
    ∃ values skipped layers,
      processRows (pyLower (pyStrip u)) rows 0 [] 0 = .ok (values, skipped) ∧
      build_layers (values.map (fun e => hash_leaf e.idx e.account e.amountWei))
        = .ok layers ∧
      layers.head? = some (values.map (fun e => hash_leaf e.idx e.account e.amountWei)) ∧
      out.stats.includedWallets
        = (values.map (fun e => hash_leaf e.idx e.account e.amountWei)).length ∧
      out.stats.skippedZeroAmountWallets = skipped ∧
      out.stats.inputRows = rows.length := by
  obtain ⟨values, skipped, layers, root, rest, claims, hp, hne, hlay, hlast,
    hcl, hroot, hclaims, hstats⟩ := main_ok_inv rows u out hm
  have hcount := processRows_count (pyLower (pyStrip u)) rows 0 [] 0 values skipped hp
  simp only [List.length_nil] at hcount
  obtain ⟨hlne, hlayers⟩ := build_layers_ok_inv _ _ hlay
  refine ⟨?_, values, skipped, layers, hp, hlay, ?_, ?_, ?_, ?_⟩
  · rw [hstats]
    simp only []
    omega
  · rw [hlayers]
    exact (buildFrom_shape _ _ hlne le_rfl).1
  · rw [hstats]
    simp
  · rw [hstats]
  · rw [hstats]

set_option maxRecDepth 100000 in
/-- Witness for C10 at the concrete two-row table `rows10` with unit `wei`
(one included row, one skipped zero-amount row). -/
theorem stats_consistency_witness :
    out10.stats.includedWallets + out10.stats.skippedZeroAmountWallets
      = out10.stats.inputRows ∧
    ∃ values skipped layers,
      processRows (pyLower (pyStrip "wei")) rows10 0 [] 0 = .ok (values, skipped) ∧
      build_layers (values.map (fun e => hash_leaf e.idx e.account e.amountWei))
        = .ok layers ∧
      layers.head? = some (values.map (fun e => hash_leaf e.idx e.account e.amountWei)) ∧
      out10.stats.includedWallets
        = (values.map (fun e => hash_leaf e.idx e.account e.amountWei)).length ∧
      out10.stats.skippedZeroAmountWallets = skipped ∧
      out10.stats.inputRows = rows10.length :=
  stats_consistency rows10 "wei" out10 rfl

end GenerateClaims
